import Mathlib

/-!
Verification development for the codemode tool-aggregation proxy
(src/src/server/server.ts).

The TypeScript source is shallowly embedded below.  JavaScript values that
flow through the schema-handling code are modelled by the mutually inductive
type `JSVal` (with `JSList`/`JSFields` for its nested lists so that all
recursions are structural and kernel-computable).  Machine behaviour of the
relevant JS builtins (truthiness, property access, `Object.entries`,
`Array.prototype.join` coercion, regex-based `replaceAll`) is embedded
explicitly.  Fallible code is modelled with `Except`; the per-call session
lifecycle of `getClient` is modelled with an explicit event trace.
-/

namespace Codemode

/-! ## Name sanitizer (server.ts lines 183-184)

`const sanitize = (name) => name.replaceAll(/\W/g, '_').replace(/^\d/, '_$&')`

`\W` (no `u` flag) is the complement of `[A-Za-z0-9_]`; `/^\d/` matches a
leading ASCII digit, and the replacement `'_$&'` prefixes it with an
underscore.  The model works on `List Char` (one `Char` per UTF-16 unit of
the JS string; surrogate pairs are immaterial to the claims). -/

def sanChar (c : Char) : Char :=
  if c.isAlphanum || c == '_' then c else '_'

def sanitizeL (l : List Char) : List Char :=
  match l.map sanChar with
  | [] => []
  | c :: rest => if c.isDigit then '_' :: c :: rest else c :: rest

def sanitize (s : String) : String :=
  String.mk (sanitizeL s.data)

/-! ## Splitting on '.' (JS `String.prototype.split('.')`)

`"a.b".split('.') = ["a","b"]`, `"".split('.') = [""]`,
`".".split('.') = ["",""]`. -/

def splitDot : List Char → List (List Char)
  | [] => [[]]
  | c :: rest =>
    if c == '.' then [] :: splitDot rest
    else
      match splitDot rest with
      | [] => [[c]]
      | g :: gs => (c :: g) :: gs

/-! ## Qualification (server.ts lines 102-107, duplicated at 189-197)

```
const fullName = serverName + '.' + tool.name;
const parts = fullName.split('.');
const callableName = parts.length > 1
  ? sanitize(parts[0]) + '.' + parts.slice(1).map(sanitize).join('_')
  : sanitize(fullName);
```
The same computation builds the dispatch map in `prepareTools`
(lines 186-200): `ns = sanitize(parts[0])`, `tool =
parts.slice(1).map(sanitize).join('_')`. -/

def underscoreJoin : List (List Char) → List Char
  | [] => []
  | [g] => g
  | g :: gs => g ++ '_' :: underscoreJoin gs

def callableNameL (fullName : List Char) : List Char :=
  match splitDot fullName with
  | p0 :: p1 :: rest => sanitizeL p0 ++ '.' :: underscoreJoin ((p1 :: rest).map sanitizeL)
  | _ => sanitizeL fullName

def callableName (fullName : String) : String :=
  String.mk (callableNameL fullName.data)

/-- `qualify backend rawName` is the qualified name the aggregator exposes
for tool `rawName` of backend `backend` (the joined name
`backend ++ "." ++ rawName` fed through the qualification step). -/
def qualifyL (backend rawName : List Char) : List Char :=
  callableNameL (backend ++ '.' :: rawName)

/-! ## JavaScript values

The schema argument of `toType` is typed `any` in the source; it is an
arbitrary (acyclic, since it originates from JSON) JavaScript value.
`JSList`/`JSFields` unfold the nested lists so every recursion below is
structural and kernel-computable. -/

mutual
inductive JSVal where
  | undefVal
  | null
  | bool (b : Bool)
  | num (n : Int)
  | str (s : String)
  | arr (xs : JSList)
  | obj (fs : JSFields)
  deriving DecidableEq
inductive JSList where
  | nil
  | cons (v : JSVal) (rest : JSList)
  deriving DecidableEq
inductive JSFields where
  | nil
  | cons (k : String) (v : JSVal) (rest : JSFields)
  deriving DecidableEq
end

/-- JS truthiness.  (`NaN` does not arise: numbers are modelled as `Int`.) -/
def truthy : JSVal → Bool
  | .undefVal => false
  | .null => false
  | .bool b => b
  | .num n => n != 0
  | .str s => s ≠ ""
  | .arr _ => true
  | .obj _ => true

/-- First binding of `k` in an object's own fields (fields are unique-keyed,
as values produced by `JSON.parse` are). -/
def lookupField : JSFields → String → JSVal
  | .nil, _ => .undefVal
  | .cons k v rest, key => if k == key then v else lookupField rest key

/-- JS property access `s[k]` for the schema-field names used by the source
(`enum`, `type`, `items`, `properties`, `required`): `undefined` on
primitives and arrays, own-field lookup on objects.  (Prototype-chain
properties such as `toString` are not modelled; the source never reads
them.) -/
def getProp (s : JSVal) (k : String) : JSVal :=
  match s with
  | .obj fs => lookupField fs k
  | _ => .undefVal

/-- `Object.entries` on a truthy value: own fields of an object, indexed
elements of an array, indexed one-character strings of a string, `[]` for
numbers and booleans.  (`Object.entries` on `null`/`undefined` throws in
JS; the source only reaches it behind a truthiness guard, and the
`[]` returned here for those two constructors is never consumed.) -/
def jsEntriesL : Nat → JSList → List (String × JSVal)
  | _, .nil => []
  | i, .cons v rest => (toString i, v) :: jsEntriesL (i + 1) rest

def jsEntriesS (i : Nat) : List Char → List (String × JSVal)
  | [] => []
  | c :: rest => (toString i, JSVal.str (String.mk [c])) :: jsEntriesS (i + 1) rest

def jsEntriesF : JSFields → List (String × JSVal)
  | .nil => []
  | .cons k v rest => (k, v) :: jsEntriesF rest

def jsEntries : JSVal → List (String × JSVal)
  | .obj fs => jsEntriesF fs
  | .arr xs => jsEntriesL 0 xs
  | .str s => jsEntriesS 0 s.data
  | _ => []

/-! ## String coercion used by `Array.prototype.join`

`join` renders `null`/`undefined` as the empty string, numbers and booleans
via `String(v)`, nested arrays via their own comma-join, and plain objects
as `[object Object]`. -/

mutual
def jsJoinElem : JSVal → String
  | .undefVal => ""
  | .null => ""
  | .bool true => "true"
  | .bool false => "false"
  | .num n => toString n
  | .str s => s
  | .arr xs => jsArrJoin xs
  | .obj _ => "[object Object]"
def jsArrJoin : JSList → String
  | .nil => ""
  | .cons v .nil => jsJoinElem v
  | .cons v rest => jsJoinElem v ++ "," ++ jsArrJoin rest
end

/-- One element of `s.enum.map(v => typeof v === 'string' ? `"v"` : v)`
followed by the `.join(' | ')` coercion: string literals are quoted, other
values are coerced as `join` does. -/
def enumElemStr : JSVal → String
  | .str s => "\"" ++ s ++ "\""
  | v => jsJoinElem v

def renderEnumElems : JSList → List String
  | .nil => []
  | .cons v rest => enumElemStr v :: renderEnumElems rest

/-- `s.enum.map(...).join(' | ')` for an array-valued `enum`. -/
def renderEnum (xs : JSList) : String :=
  String.intercalate " | " (renderEnumElems xs)

/-! ## Signature synthesizer `toType` (server.ts lines 213-239) -/

/-- A thrown JS `TypeError` (calling a missing method such as `.map` on a
non-array or `.includes` on a value that has neither).  `outOfFuel` is an
artifact of the fuel-indexed embedding; `toType_total_on_schemaOk` below
shows the wrapper `toType` has enough fuel on well-formed schemas. -/
inductive TErr where
  | typeError
  | outOfFuel
  deriving DecidableEq

def isPrefixOfL : List Char → List Char → Bool
  | [], _ => true
  | _ :: _, [] => false
  | a :: as, b :: bs => a == b && isPrefixOfL as bs

/-- JS `String.prototype.includes`: `hay.includes(needle)` as substring
containment. -/
def containsSub (needle : List Char) : List Char → Bool
  | [] => needle.isEmpty
  | c :: rest => isPrefixOfL needle (c :: rest) || containsSub needle rest

/-- Membership test of JS `Array.prototype.includes(k)` for a string `k`
(strict `SameValueZero` comparison: only an identical string matches). -/
def jsIncludesStr : JSList → String → Bool
  | .nil, _ => false
  | .cons v rest, k => (v == JSVal.str k) || jsIncludesStr rest k

/-- `s.required?.includes(k)`: optional chaining yields `undefined` (falsy)
for `null`/`undefined`; arrays and strings have an `includes` method;
calling `.includes` on a number, boolean or plain object throws. -/
def requiredCheck : JSVal → String → Except TErr Bool
  | .undefVal, _ => .ok false
  | .null, _ => .ok false
  | .arr xs, k => .ok (jsIncludesStr xs k)
  | .str s, k => .ok (containsSub k.data s.data)
  | _, _ => .error .typeError

/-- The primitive-name lookup table at the end of `toType`:
`{string, number, integer, boolean, null}[s.type] || 'any'`. -/
def primType : JSVal → String
  | .str "string" => "string"
  | .str "number" => "number"
  | .str "integer" => "number"
  | .str "boolean" => "boolean"
  | .str "null" => "null"
  | _ => "any"

/-! Fuel-indexed embedding of `toType(s, d)` (the fuel only forces
termination; `toType` instantiates it with enough fuel, see
`toType_fuel_sufficient`).  `renderEntriesF` is the
`Object.entries(s.properties).map(...)` loop, one rendered property per
element, evaluated left to right with the `required` membership test before
the recursive call, as in the source. -/
mutual
def toTypeF : Nat → JSVal → Nat → Except TErr String
  | 0, _, _ => .error .outOfFuel
  | fuel + 1, s, d =>
    if truthy s = false then .ok "any"
    else if truthy (getProp s "enum") then
      match getProp s "enum" with
      | .arr xs => .ok (renderEnum xs)
      | _ => .error .typeError
    else if getProp s "type" == .str "array" then
      if truthy (getProp s "items") then
        match toTypeF fuel (getProp s "items") (d + 1) with
        | .ok t => .ok ("(" ++ t ++ ")[]")
        | .error e => .error e
      else .ok "any[]"
    else if getProp s "type" == .str "object" then
      if !truthy (getProp s "properties") || decide (d > 2) then
        .ok "\x7b [key: string]: any \x7d"
      else
        match renderEntriesF fuel (jsEntries (getProp s "properties")) (getProp s "required") d with
        | .ok parts => .ok ("\x7b " ++ String.intercalate "; " parts ++ " \x7d")
        | .error e => .error e
    else .ok (primType (getProp s "type"))
def renderEntriesF : Nat → List (String × JSVal) → JSVal → Nat → Except TErr (List String)
  | 0, _, _, _ => .error .outOfFuel
  | _ + 1, [], _, _ => .ok []
  | fuel + 1, (k, v) :: rest, req, d =>
    match requiredCheck req k with
    | .error e => .error e
    | .ok isReq =>
      match toTypeF fuel v (d + 1) with
      | .error e => .error e
      | .ok t =>
        match renderEntriesF fuel rest req d with
        | .error e => .error e
        | .ok parts => .ok ((k ++ (if isReq then "" else "?") ++ ": " ++ t) :: parts)
end

/-! A size measure on JS values large enough to bound the recursion of
`toType` (strings are charged their length because `Object.entries` of a
string yields one entry per character). -/
mutual
def jsize : JSVal → Nat
  | .undefVal | .null | .bool _ | .num _ => 1
  | .str s => 1 + s.length
  | .arr xs => 1 + jsizeL xs
  | .obj fs => 1 + jsizeF fs
def jsizeL : JSList → Nat
  | .nil => 0
  | .cons v rest => 1 + jsize v + jsizeL rest
def jsizeF : JSFields → Nat
  | .nil => 0
  | .cons _ v rest => 1 + jsize v + jsizeF rest
end

/-- `toType(s)` as called by `generateInterface` (root depth 0). -/
def toType (s : JSVal) : Except TErr String :=
  toTypeF (jsize s + 1) s 0

/-- Fuel needed by `renderEntriesF` on an entry list (used only in the
fuel-sufficiency proof). -/
def entriesWeight : List (String × JSVal) → Nat
  | [] => 1
  | (_, v) :: rest => Nat.max (jsize v + 2) (entriesWeight rest + 1)

/-- Schemas on which `toType` provably does not throw: at every node, a
truthy `enum` field is an array, and a `required` field is
absent/null/array/string (so that `?.includes` does not throw). -/
def enumOkNode (s : JSVal) : Bool :=
  match getProp s "enum" with
  | .arr _ => true
  | e => !truthy e

def reqValOk : JSVal → Bool
  | .undefVal | .null | .arr _ | .str _ => true
  | _ => false

def reqOkNode (s : JSVal) : Bool :=
  reqValOk (getProp s "required")

mutual
def schemaOk : JSVal → Bool
  | .obj fs => enumOkNode (.obj fs) && reqOkNode (.obj fs) && schemaOkF fs
  | .arr xs => schemaOkL xs
  | _ => true
def schemaOkL : JSList → Bool
  | .nil => true
  | .cons v rest => schemaOk v && schemaOkL rest
def schemaOkF : JSFields → Bool
  | .nil => true
  | .cons _ v rest => schemaOk v && schemaOkF rest
end

/-! ## Backend configuration (the `Server` record)

The `Server` type is imported by server.ts from `src/server/client` (its
declaration file is not part of the sources here); its fields are
reconstructed from every use in server.ts (`url`, `headers`, `env`,
`command`, `args`, `codemode?.allow`, `codemode?.deny`) and match the
spec's `BackendConfig` (§3).  Absent optional fields are `none`
(JS `undefined`); note `some []` for `allow` is truthy in JS, exactly as an
empty configured array is. -/

structure CodemodeFilter where
  allow : Option (List String)
  deny : Option (List String)
  deriving DecidableEq

structure Server where
  url : Option String
  headers : Option (List (String × String))
  env : Option (List (String × String))
  command : Option String
  args : Option (List String)
  codemode : Option CodemodeFilter
  deriving DecidableEq

/-- A tool as reported by a backend (server.ts lines 15-19). -/
structure ServerTool where
  name : String
  description : Option String
  inputSchema : JSVal
  deriving DecidableEq

def allowOf (cfg : Server) : Option (List String) :=
  cfg.codemode.bind (·.allow)

def denyOf (cfg : Server) : Option (List String) :=
  cfg.codemode.bind (·.deny)

/-- Filtering step of `getAllServerTools` (server.ts lines 97-99):

```
const filteredTools = cfg.codemode?.allow
  ? serverTools.filter((t) => cfg.codemode?.allow?.includes(t.name))
  : serverTools.filter((t) => !cfg.codemode?.deny?.includes(t.name));
```

The condition is JS truthiness of `cfg.codemode?.allow`: any present array
(even `[]`) is truthy; in the deny branch an absent `deny` makes
`deny?.includes(...)` come out `undefined`, so the negation keeps the
tool. -/
def filterTools (cfg : Server) (serverTools : List ServerTool) : List ServerTool :=
  match allowOf cfg with
  | some allowL => serverTools.filter fun t => allowL.contains t.name
  | none =>
    serverTools.filter fun t =>
      match denyOf cfg with
      | some denyL => !denyL.contains t.name
      | none => true

/-! ## Backend connector `getClient` (server.ts lines 158-181)

```
const client = new Client({ name, version: '1.0.0' });
try {
  await client.connect(transport);
  return await cb(client);
} finally {
  await client.close();
}
```

The connector is modelled as a completed computation: a trace of session
events together with an `Except` result.  The outcomes of the three
effectful steps (`connect`, the callback `cb`, `close`) are parameters, so
the theorems quantify over success, application error and transport error
on each of them. -/

/-- A thrown JS `Error` with its message. -/
inductive JsErr where
  | thrown (msg : String)
  deriving DecidableEq

inductive CEvent where
  | connectEv
  | callbackEv
  | closeEv
  deriving DecidableEq

/-- Sequencing of two awaited steps: the second runs only if the first
succeeded (its error propagates otherwise). -/
def bindE (x : List CEvent × Except JsErr α) (f : α → List CEvent × Except JsErr β) :
    List CEvent × Except JsErr β :=
  match x with
  | (log, .error e) => (log, .error e)
  | (log, .ok a) => (log ++ (f a).1, (f a).2)

/-- JS `try ... finally`: the finaliser always runs; if it throws, its error
supersedes the body's outcome, otherwise the body's outcome stands. -/
def tryFinallyE (body : List CEvent × Except JsErr α) (fin : List CEvent × Except JsErr Unit) :
    List CEvent × Except JsErr α :=
  (body.1 ++ fin.1,
    match fin.2 with
    | .error e => .error e
    | .ok _ => body.2)

/-- `getClient cfg name cb` from client creation onward: connect, run the
callback, and close in a `finally`. -/
def getClientE (connectR : Except JsErr Unit) (cbR : Except JsErr α) (closeR : Except JsErr Unit) :
    List CEvent × Except JsErr α :=
  tryFinallyE
    (bindE ([CEvent.connectEv], connectR) fun _ => ([CEvent.callbackEv], cbR))
    ([CEvent.closeEv], closeR)

/-! ## Invocation router `executeTool` (server.ts lines 64-77) -/

/-- One entry pushed onto `toolRegistry` during aggregation
(server.ts lines 29-30 and 119-127). -/
structure RegEntry where
  serverName : String
  cfg : Server
  tool : ServerTool
  deriving DecidableEq

/-- `toolRegistry.find((e) => e.serverName === serverName && e.tool.name === toolName)`. -/
def findEntry (reg : List RegEntry) (serverName toolName : String) : Option RegEntry :=
  reg.find? fun e => e.serverName == serverName && e.tool.name == toolName

/-- The result of a backend `callTool` request: `structuredContent` is
`undefVal` when the backend omitted it. -/
structure CallResult where
  structuredContent : JSVal
  content : JSVal
  deriving DecidableEq

/-- `executeTool(serverName, toolName, args)`: look the pair up in the
registry; absent, throw ``Tool serverName.toolName not found`` without
touching the connector; present, drive one call through `getClient` and
return `result.structuredContent || result.content`.  The second component
is the connector's event trace (empty iff the connector was never
entered). -/
def executeTool (reg : List RegEntry) (serverName toolName : String)
    (connectR : Except JsErr Unit) (callR : Except JsErr CallResult) (closeR : Except JsErr Unit) :
    Except JsErr JSVal × List CEvent :=
  match findEntry reg serverName toolName with
  | none => (.error (.thrown ("Tool " ++ serverName ++ "." ++ toolName ++ " not found")), [])
  | some _ =>
    let r := getClientE connectR callR closeR
    (r.2.map fun res => if truthy res.structuredContent then res.structuredContent else res.content,
      r.1)

/-! ## Interface rendering (server.ts lines 202-211) -/

/-- JS template interpolation of `tool.description`: `undefined` renders as
the literal text `undefined`. -/
def descStr : Option String → String
  | some s => s
  | none => "undefined"

/-- `generateInterface(tool)`.  The only fallible step is `toType` on the
tool's input schema; the surrounding text assembly never throws. -/
def generateInterface (tool : ServerTool) : Except TErr String :=
  match toType tool.inputSchema with
  | .error e => .error e
  | .ok ty =>
    match splitDot tool.name.data with
    | p0 :: p1 :: rest =>
      .ok ("namespace " ++ String.mk (sanitizeL p0) ++ " \x7b /* " ++ descStr tool.description ++
        " */ function " ++ String.mk (underscoreJoin ((p1 :: rest).map sanitizeL)) ++
        "(args: " ++ ty ++ "): Promise<any>; \x7d")
    | _ =>
      .ok ("/* " ++ descStr tool.description ++ " */ function " ++
        String.mk (sanitizeL tool.name.data) ++ "(args: " ++ ty ++ "): Promise<any>;")

def generateInterfaceList : List ServerTool → Except TErr (List String)
  | [] => .ok []
  | t :: rest =>
    match generateInterface t with
    | .error e => .error e
    | .ok s =>
      match generateInterfaceList rest with
      | .error e => .error e
      | .ok ss => .ok (s :: ss)

/-- `generateInterfaces(tools) = tools.map(generateInterface).join('\n')`. -/
def generateInterfaces (tools : List ServerTool) : Except TErr String :=
  match generateInterfaceList tools with
  | .error e => .error e
  | .ok ss => .ok (String.intercalate "\n" ss)

/-! ## Catalog aggregation `getAllServerTools` (server.ts lines 79-140)

Each configured backend is queried for its tool list; the outcome of that
per-backend `getClient` exchange is the `outcome` parameter (`.error` for a
connection or listing failure, which the source catches per backend and
turns into zero contributed tools).  The source runs the queries under
`Promise.all` and pushes results as each backend settles; the model fixes
the configuration order, which determines contents up to the interleaving
of the concurrent pushes.  After all backends settle, the interface text is
generated from the joined tool list — an uncaught `toType` TypeError there
escapes `getAllServerTools` itself, hence the `Except` result. -/

/-- `serverConfig.serverTools[k] = v`: JS object assignment (overwrite the
existing binding, else append). -/
def upsertST (m : List (String × ServerTool)) (k : String) (v : ServerTool) :
    List (String × ServerTool) :=
  if m.any (fun p => p.1 == k) then m.map (fun p => if p.1 == k then (k, v) else p)
  else m ++ [(k, v)]

/-- The per-backend contribution: filtered tools tagged with their backend
name and config.  A failed backend contributes the empty list. -/
def backendBatch (outcome : String → Server → Except JsErr (List ServerTool))
    (nc : String × Server) : List (String × Server × ServerTool) :=
  match outcome nc.1 nc.2 with
  | .error _ => []
  | .ok ts => (filterTools nc.2 ts).map fun t => (nc.1, nc.2, t)

/-- The aggregation state published into `serverConfig` and `toolRegistry`
(the `rawTools` closures are represented by their data: `toolRegistry`
already carries `(serverName, cfg, tool)`, which is all a closure
captures). -/
structure AggResult where
  serverTools : List (String × ServerTool)
  toolRegistry : List RegEntry
  toolList : List ServerTool
  interfaces : String
  deriving DecidableEq

def getAllServerTools (servers : List (String × Server))
    (outcome : String → Server → Except JsErr (List ServerTool)) : Except TErr AggResult :=
  let flat := (servers.map (backendBatch outcome)).flatten
  let serverToolsMap := flat.foldl (fun m e =>
    upsertST m (callableName (e.1 ++ "." ++ e.2.2.name))
      { name := callableName (e.1 ++ "." ++ e.2.2.name)
        description := e.2.2.description
        inputSchema := e.2.2.inputSchema }) []
  let registry := flat.map fun e => RegEntry.mk e.1 e.2.1 e.2.2
  let toolList := flat.map fun e =>
    ServerTool.mk (e.1 ++ "." ++ e.2.2.name) e.2.2.description e.2.2.inputSchema
  match generateInterfaces toolList with
  | .error e => .error e
  | .ok itf => .ok (AggResult.mk serverToolsMap registry toolList itf)

/-! ## Initialization `init` (server.ts lines 36-44)

```
const servers = JSON.parse(
  (await readFile(process.env.CODEMODE_SERVERS || '', 'utf8')) || '{}'
);
await getAllServerTools(servers);
```

`readFile` is modelled by its outcome (`none` = rejection for a missing or
unreadable file, `some content` = the file's text) and the platform
`JSON.parse` by a parameter `parse` (`none` = a SyntaxError on malformed
content).  A rejection or throw propagates out of `init` — there is no
try/catch.  `getAllServerTools` then evaluates `Object.entries(input.servers)`,
which throws a TypeError when the parsed document has no `servers` field
(or a `null` one). -/

inductive InitErr where
  | readError
  | parseError
  | entriesTypeError
  deriving DecidableEq

/-- The configuration-loading stage of `init`: the list of configured
backend entries it hands to the aggregator, or the error `init` raises. -/
def initServers (readResult : Option String) (parse : String → Option JSVal) :
    Except InitErr (List (String × JSVal)) :=
  match readResult with
  | none => .error .readError
  | some content =>
    match parse (if content == "" then "\x7b\x7d" else content) with
    | none => .error .parseError
    | some j =>
      match getProp j "servers" with
      | .undefVal => .error .entriesTypeError
      | .null => .error .entriesTypeError
      | v => .ok (jsEntries v)

/-! ## Placeholder expansion `expandEnv` (server.ts lines 142-143)

```
const expandEnv = (s) =>
  s.replaceAll(/\$\x7b([^\x7d]+)\x7d/g, (_, v) => process.env[v] || _);
```

`replaceAll` scans left to right; at a `$` immediately followed by `{` the
pattern captures one or more non-`}` characters up to the first `}`.  On a
match, the replacement is the environment value if it is truthy (set and
non-empty) and otherwise the matched text itself; scanning resumes after
the match either way.  Where the pattern cannot match (no `{`, an
immediately closing `{}`, or no `}` anywhere ahead — in which case no later
position can match either), the character is kept and scanning advances.
`procEnv` models `process.env`: `none` for an unset variable.

`tryVarScan procEnv acc l` walks `l` for the closing brace with the
reversed name characters read so far in `acc`; it returns the whole
expanded output from the match onward, or `none` when the pattern cannot
match at this position. -/

mutual
def expandEnvL (procEnv : List Char → Option (List Char)) : List Char → List Char
  | [] => []
  | [c] => [c]
  | c :: c2 :: rest2 =>
    if c == '$' && c2 == '\x7b' then
      match tryVarScan procEnv [] rest2 with
      | some out => out
      | none => c :: expandEnvL procEnv (c2 :: rest2)
    else c :: expandEnvL procEnv (c2 :: rest2)
  termination_by l => l.length
def tryVarScan (procEnv : List Char → Option (List Char)) (acc : List Char) :
    List Char → Option (List Char)
  | [] => none
  | c :: rest =>
    if c == '\x7d' then
      if acc.isEmpty then none
      else
        let v := acc.reverse
        some (match procEnv v with
          | some val =>
            if val.isEmpty then '$' :: '\x7b' :: (v ++ '\x7d' :: expandEnvL procEnv rest)
            else val ++ expandEnvL procEnv rest
          | none => '$' :: '\x7b' :: (v ++ '\x7d' :: expandEnvL procEnv rest))
    else tryVarScan procEnv (c :: acc) rest
  termination_by l => l.length
end

/-- `expandEnv` at the `String` level. -/
def expandEnv (procEnv : List Char → Option (List Char)) (s : String) : String :=
  String.mk (expandEnvL procEnv s.data)

/-- `expand(c)` (server.ts lines 144-156): rebuild the config with every
header and environment value run through `expandEnv` (absent maps stay
absent). -/
def expandServer (procEnv : List Char → Option (List Char)) (c : Server) : Server :=
  { c with
    headers := c.headers.map (List.map fun kv => (kv.1, expandEnv procEnv kv.2))
    env := c.env.map (List.map fun kv => (kv.1, expandEnv procEnv kv.2)) }

/-! # Theorems -/

/-! ## Sanitizer -/

theorem sanChar_underscore : sanChar '_' = '_' := by decide

theorem underscore_not_digit : '_'.isDigit = false := by decide

theorem sanChar_idem (c : Char) : sanChar (sanChar c) = sanChar c := by
  by_cases h : c.isAlphanum || c == '_' <;> simp [sanChar, h]

theorem mapSanChar_idem (l : List Char) : (l.map sanChar).map sanChar = l.map sanChar := by
  induction l with
  | nil => rfl
  | cons c rest ih => simp [List.map_cons, sanChar_idem, ih]

theorem sanitizeL_idem (l : List Char) : sanitizeL (sanitizeL l) = sanitizeL l := by
  cases h : l.map sanChar with
  | nil =>
    have h1 : sanitizeL l = [] := by simp [sanitizeL, h]
    rw [h1]; rfl
  | cons c rest =>
    have h2 : (c :: rest).map sanChar = c :: rest := by rw [← h]; exact mapSanChar_idem l
    by_cases hd : c.isDigit
    · have h1 : sanitizeL l = '_' :: c :: rest := by simp [sanitizeL, h, hd]
      have h3 : ('_' :: c :: rest).map sanChar = '_' :: c :: rest := by
        rw [List.map_cons, sanChar_underscore, h2]
      rw [h1]
      simp [sanitizeL, h3, underscore_not_digit]
    · have h1 : sanitizeL l = c :: rest := by simp [sanitizeL, h, hd]
      rw [h1]
      simp [sanitizeL, h2, hd]

/-- Claim C8: `sanitize` is idempotent — for every string `x`,
`sanitize (sanitize x) = sanitize x`. -/
theorem sanitize_idempotent (x : String) : sanitize (sanitize x) = sanitize x :=
  congrArg String.mk (sanitizeL_idem x.data)

/-! ## Connector session lifecycle -/

/-- Claim C4: for every outcome of the connect step, of the callback, and
of the close step — callback success, callback (application) error,
transport/connection error — the `getClient` session is closed exactly
once, and that close is the final session event before the call returns or
raises. -/
theorem getClient_closes_once {α : Type} (connectR : Except JsErr Unit)
    (cbR : Except JsErr α) (closeR : Except JsErr Unit) :
    ((getClientE connectR cbR closeR).1.count CEvent.closeEv = 1) ∧
    ((getClientE connectR cbR closeR).1.getLast? = some CEvent.closeEv) := by
  cases connectR <;> cases cbR <;> cases closeR <;> exact ⟨rfl, rfl⟩

/-! ## Invocation router -/

/-- Claim C6: an invocation whose `(backend, tool name)` pair is not in the
registry throws the not-found error and produces no connector event at all
(no network or subprocess call). -/
theorem executeTool_notFound (reg : List RegEntry) (serverName toolName : String)
    (connectR : Except JsErr Unit) (callR : Except JsErr CallResult) (closeR : Except JsErr Unit)
    (h : findEntry reg serverName toolName = none) :
    executeTool reg serverName toolName connectR callR closeR =
      (.error (.thrown ("Tool " ++ serverName ++ "." ++ toolName ++ " not found")), []) := by
  simp [executeTool, h]

theorem executeTool_notFound_witness :
    findEntry [] "srv" "tool" = none ∧
    executeTool [] "srv" "tool" (.ok ()) (.error (.thrown "x")) (.ok ()) =
      (.error (.thrown ("Tool " ++ "srv" ++ "." ++ "tool" ++ " not found")), []) :=
  ⟨rfl, executeTool_notFound [] "srv" "tool" (.ok ()) (.error (.thrown "x")) (.ok ()) rfl⟩

/-- Claim C7: a successful invocation returns the structured payload when
the backend's result carries one (an object, hence truthy), and returns the
unstructured `content` payload when `structuredContent` is absent. -/
theorem executeTool_payload (reg : List RegEntry) (serverName toolName : String)
    (e : RegEntry) (hfind : findEntry reg serverName toolName = some e) (r : CallResult) :
    (∀ fs : JSFields, r.structuredContent = JSVal.obj fs →
      (executeTool reg serverName toolName (.ok ()) (.ok r) (.ok ())).1 = .ok (JSVal.obj fs)) ∧
    (r.structuredContent = JSVal.undefVal →
      (executeTool reg serverName toolName (.ok ()) (.ok r) (.ok ())).1 = .ok r.content) := by
  constructor
  · intro fs hs
    simp [executeTool, hfind, getClientE, bindE, tryFinallyE, Except.map, hs, truthy]
  · intro hs
    simp [executeTool, hfind, getClientE, bindE, tryFinallyE, Except.map, hs, truthy]

theorem executeTool_payload_witness :
    (executeTool [RegEntry.mk "s" (Server.mk none none none none none none)
        (ServerTool.mk "t" none JSVal.undefVal)] "s" "t"
      (.ok ()) (.ok (CallResult.mk (JSVal.obj .nil) (JSVal.str "c"))) (.ok ())).1 =
        .ok (JSVal.obj .nil) ∧
    (executeTool [RegEntry.mk "s" (Server.mk none none none none none none)
        (ServerTool.mk "t" none JSVal.undefVal)] "s" "t"
      (.ok ()) (.ok (CallResult.mk JSVal.undefVal (JSVal.str "c"))) (.ok ())).1 =
        .ok (JSVal.str "c") :=
  ⟨(executeTool_payload
      [RegEntry.mk "s" (Server.mk none none none none none none) (ServerTool.mk "t" none JSVal.undefVal)]
      "s" "t"
      (RegEntry.mk "s" (Server.mk none none none none none none) (ServerTool.mk "t" none JSVal.undefVal))
      rfl (CallResult.mk (JSVal.obj .nil) (JSVal.str "c"))).1 .nil rfl,
   (executeTool_payload
      [RegEntry.mk "s" (Server.mk none none none none none none) (ServerTool.mk "t" none JSVal.undefVal)]
      "s" "t"
      (RegEntry.mk "s" (Server.mk none none none none none none) (ServerTool.mk "t" none JSVal.undefVal))
      rfl (CallResult.mk JSVal.undefVal (JSVal.str "c"))).2 rfl⟩

/-! ## Allow/deny filtering -/

/-- Claim C5: with an `allow` list present it alone determines inclusion
(whatever `deny` holds); with `allow` absent and `deny` present exactly the
non-denied tools survive; with both absent every tool passes through. -/
theorem filterTools_spec (cfg : Server) (tools : List ServerTool) :
    (∀ allowL, allowOf cfg = some allowL →
      ∀ t, t ∈ filterTools cfg tools ↔ t ∈ tools ∧ t.name ∈ allowL) ∧
    (∀ denyL, allowOf cfg = none → denyOf cfg = some denyL →
      ∀ t, t ∈ filterTools cfg tools ↔ t ∈ tools ∧ t.name ∉ denyL) ∧
    (allowOf cfg = none → denyOf cfg = none → filterTools cfg tools = tools) := by
  refine ⟨?_, ?_, ?_⟩
  · intro allowL ha t
    simp [filterTools, ha, List.mem_filter]
  · intro denyL ha hd t
    simp [filterTools, ha, hd, List.mem_filter]
  · intro ha hd
    simp [filterTools, ha, hd]

theorem filterTools_spec_witness :
    ServerTool.mk "a" none JSVal.undefVal ∈
        filterTools
          (Server.mk none none none none none (some (CodemodeFilter.mk (some ["a", "c"]) (some ["a"]))))
          [ServerTool.mk "a" none JSVal.undefVal, ServerTool.mk "b" none JSVal.undefVal] ↔
      ServerTool.mk "a" none JSVal.undefVal ∈
          [ServerTool.mk "a" none JSVal.undefVal, ServerTool.mk "b" none JSVal.undefVal] ∧
        (ServerTool.mk "a" none JSVal.undefVal).name ∈ ["a", "c"] :=
  (filterTools_spec
      (Server.mk none none none none none (some (CodemodeFilter.mk (some ["a", "c"]) (some ["a"]))))
      [ServerTool.mk "a" none JSVal.undefVal, ServerTool.mk "b" none JSVal.undefVal]).1
    ["a", "c"] rfl (ServerTool.mk "a" none JSVal.undefVal)

/-! ## Placeholder expansion -/

theorem tryVarScan_closes (procEnv : List Char → Option (List Char)) (v : List Char)
    (hv : '\x7d' ∉ v) : ∀ acc rest,
    tryVarScan procEnv acc (v ++ '\x7d' :: rest) =
      (if (v.reverse ++ acc).isEmpty then none
       else some (match procEnv (acc.reverse ++ v) with
         | some val =>
           if val.isEmpty then
             '$' :: '\x7b' :: ((acc.reverse ++ v) ++ '\x7d' :: expandEnvL procEnv rest)
           else val ++ expandEnvL procEnv rest
         | none => '$' :: '\x7b' :: ((acc.reverse ++ v) ++ '\x7d' :: expandEnvL procEnv rest))) := by
  induction v with
  | nil =>
    intro acc rest
    simp [tryVarScan]
  | cons c v' ih =>
    intro acc rest
    have hc : (c == '\x7d') = false := by
      simp only [List.mem_cons, not_or] at hv
      simp only [beq_eq_false_iff_ne, ne_eq]
      exact fun hcc => hv.1 hcc.symm
    have hv' : '\x7d' ∉ v' := by
      simp only [List.mem_cons, not_or] at hv
      exact hv.2
    calc tryVarScan procEnv acc ((c :: v') ++ '\x7d' :: rest)
        = tryVarScan procEnv (c :: acc) (v' ++ '\x7d' :: rest) := by
          simp [tryVarScan, hc]
      _ = _ := by
          rw [ih hv' (c :: acc) rest]
          simp [List.append_assoc]

/-- Claim C10: in `expandEnv`, a `${VAR}` placeholder whose variable is
unset or set to the empty string (falsy) is left in place literally, and
substitution happens exactly when the variable's value is truthy
(non-empty). -/
theorem expandEnv_truthiness (procEnv : List Char → Option (List Char)) (v rest : List Char)
    (hv : v ≠ []) (hnc : '\x7d' ∉ v) :
    ((procEnv v = some [] ∨ procEnv v = none) →
      expandEnvL procEnv ('$' :: '\x7b' :: (v ++ '\x7d' :: rest)) =
        '$' :: '\x7b' :: (v ++ '\x7d' :: expandEnvL procEnv rest)) ∧
    (∀ val, procEnv v = some val → val ≠ [] →
      expandEnvL procEnv ('$' :: '\x7b' :: (v ++ '\x7d' :: rest)) =
        val ++ expandEnvL procEnv rest) := by
  have hscan := tryVarScan_closes procEnv v hnc [] rest
  have hne : (v.reverse ++ ([] : List Char)).isEmpty = false := by
    simp [List.isEmpty_iff, hv]
  have hmatch : ∃ c2 rest2, v ++ '\x7d' :: rest = c2 :: rest2 := by
    cases v with
    | nil => exact absurd rfl hv
    | cons c v' => exact ⟨c, v' ++ '\x7d' :: rest, rfl⟩
  obtain ⟨c2, rest2, hsplit⟩ := hmatch
  constructor
  · rintro (h | h) <;>
      rw [hsplit] <;> simp [expandEnvL, ← hsplit, hscan, hne, h, hv]
  · intro val hval hvne
    have hvale : val.isEmpty = false := by simp [List.isEmpty_iff, hvne]
    rw [hsplit]
    simp [expandEnvL, ← hsplit, hscan, hne, hval, hvale, hv]

theorem expandEnv_truthiness_witness :
    expandEnvL (fun l => if l = ['V'] then some [] else none)
        ('$' :: '\x7b' :: (['V'] ++ '\x7d' :: [])) =
      '$' :: '\x7b' :: (['V'] ++ '\x7d' ::
        expandEnvL (fun l => if l = ['V'] then some [] else none) []) :=
  (expandEnv_truthiness (fun l => if l = ['V'] then some [] else none) ['V'] []
      (by decide) (by decide)).1 (Or.inl (by simp))

/-! ## Qualification -/

theorem splitDot_dotfree (l : List Char) (h : '.' ∉ l) : splitDot l = [l] := by
  induction l with
  | nil => rfl
  | cons c rest ih =>
    simp only [List.mem_cons, not_or] at h
    have hc : (c == '.') = false := by
      simp only [beq_eq_false_iff_ne, ne_eq]
      exact fun hcc => h.1 hcc.symm
    simp [splitDot, hc, ih h.2]

theorem splitDot_append (b n : List Char) (hb : '.' ∉ b) :
    splitDot (b ++ '.' :: n) = b :: splitDot n := by
  induction b with
  | nil => simp [splitDot]
  | cons c b' ih =>
    simp only [List.mem_cons, not_or] at hb
    have hc : (c == '.') = false := by
      simp only [beq_eq_false_iff_ne, ne_eq]
      exact fun hcc => hb.1 hcc.symm
    simp [splitDot, hc, ih hb.2]

theorem sanChar_ne_dot (c : Char) : sanChar c ≠ '.' := by
  unfold sanChar
  split
  · rename_i h
    rintro rfl
    revert h
    decide
  · decide

theorem sanitizeL_no_dot (l : List Char) : '.' ∉ sanitizeL l := by
  have hm : ∀ c ∈ l.map sanChar, c ≠ '.' := by
    intro c hc
    obtain ⟨a, _, rfl⟩ := List.mem_map.mp hc
    exact sanChar_ne_dot a
  cases h : l.map sanChar with
  | nil =>
    have h0 : sanitizeL l = [] := by simp [sanitizeL, h]
    rw [h0]
    exact List.not_mem_nil '.'
  | cons c rest =>
    rw [h] at hm
    by_cases hd : c.isDigit
    · have h0 : sanitizeL l = '_' :: c :: rest := by simp [sanitizeL, h, hd]
      rw [h0]
      intro hmem
      rcases List.mem_cons.mp hmem with h1 | h2
      · exact absurd h1 (by decide)
      · exact hm '.' h2 rfl
    · have h0 : sanitizeL l = c :: rest := by simp [sanitizeL, h, hd]
      rw [h0]
      intro hmem
      exact hm '.' hmem rfl

theorem append_dot_cancel : ∀ (a a' b b' : List Char), '.' ∉ a → '.' ∉ a' →
    a ++ '.' :: b = a' ++ '.' :: b' → a = a' ∧ b = b'
  | [], [], _, _, _, _, h => by simpa using h
  | [], c' :: a₁, _, _, _, ha', h => by
    simp only [List.nil_append, List.cons_append, List.cons.injEq] at h
    exact absurd (List.mem_cons.mpr (Or.inl h.1)) ha'
  | c :: a₀, [], _, _, ha, _, h => by
    simp only [List.cons_append, List.nil_append, List.cons.injEq] at h
    exact absurd (List.mem_cons.mpr (Or.inl h.1.symm)) ha
  | c :: a₀, c' :: a₁, b, b', ha, ha', h => by
    simp only [List.cons_append, List.cons.injEq] at h
    have hrec := append_dot_cancel a₀ a₁ b b'
      (fun hm => ha (List.mem_cons.mpr (Or.inr hm)))
      (fun hm => ha' (List.mem_cons.mpr (Or.inr hm))) h.2
    exact ⟨by rw [h.1, hrec.1], hrec.2⟩

/-- When neither side contains a dot, the qualified name is just the
sanitized backend, a dot, and the sanitized tool name. -/
theorem qualifyL_dotfree (b n : List Char) (hb : '.' ∉ b) (hn : '.' ∉ n) :
    qualifyL b n = sanitizeL b ++ '.' :: sanitizeL n := by
  unfold qualifyL callableNameL
  rw [splitDot_append b n hb, splitDot_dotfree n hn]
  simp [underscoreJoin]

/-- Claim C9 counterexample: the distinct pairs `("a", "b.1c")` and
`("a", "b._1c")` have distinct sanitized forms (`sanitize` of the raw names
differs), yet the qualification step maps both to the same qualified name
`a.b__1c` — qualification is not injective under the claim's
non-collision precondition. -/
theorem spec_c9_counterexample :
    qualifyL ['a'] ['b', '.', '1', 'c'] = qualifyL ['a'] ['b', '.', '_', '1', 'c'] ∧
    (['b', '.', '1', 'c'] : List Char) ≠ ['b', '.', '_', '1', 'c'] ∧
    sanitizeL ['b', '.', '1', 'c'] ≠ sanitizeL ['b', '.', '_', '1', 'c'] := by decide

/-- Claim C9 (amended): across pairs whose backend identifier and raw tool
name are dot-free, qualification is injective whenever the sanitized forms
`(sanitize backend, sanitize name)` do not collide.  (With dots in the raw
name the qualification flattens segments and distinct sanitized forms can
collide, see the counterexample.) -/
theorem qualify_injective_dotfree (b₁ n₁ b₂ n₂ : List Char)
    (hb₁ : '.' ∉ b₁) (hn₁ : '.' ∉ n₁) (hb₂ : '.' ∉ b₂) (hn₂ : '.' ∉ n₂)
    (hne : ¬(sanitizeL b₁ = sanitizeL b₂ ∧ sanitizeL n₁ = sanitizeL n₂)) :
    qualifyL b₁ n₁ ≠ qualifyL b₂ n₂ := by
  rw [qualifyL_dotfree b₁ n₁ hb₁ hn₁, qualifyL_dotfree b₂ n₂ hb₂ hn₂]
  intro h
  exact hne (append_dot_cancel _ _ _ _ (sanitizeL_no_dot b₁) (sanitizeL_no_dot b₂) h)

theorem qualify_injective_dotfree_witness :
    qualifyL ['s'] ['a'] ≠ qualifyL ['s'] ['b'] :=
  qualify_injective_dotfree ['s'] ['a'] ['s'] ['b']
    (by decide) (by decide) (by decide) (by decide) (by decide)

/-! ## Initialization -/

/-- Claim C1 counterexample: a missing/unreadable configuration file
(`readFile` rejects) makes `init` raise instead of completing with an empty
registry, and malformed content (`JSON.parse` throws) makes it raise as
well — there is no try/catch in `init`. -/
theorem spec_c1_counterexample :
    initServers none (fun _ => none) = .error InitErr.readError ∧
    initServers (some "not json") (fun _ => none) = .error InitErr.parseError := by
  constructor
  · rfl
  · simp [initServers]

/-- Claim C1 (amended): `init` raises on a missing or unreadable
configuration file and on malformed content (only empty file content is
replaced by `"\x7b\x7d"` before parsing, and even a well-formed document
without a `servers` field raises at `Object.entries`); an empty backend
list arises only from a well-formed document whose `servers` field is an
empty object. -/
theorem initServers_behavior (parse : String → Option JSVal) :
    (initServers none parse = .error .readError) ∧
    (∀ content, parse (if content = "" then "\x7b\x7d" else content) = none →
      initServers (some content) parse = .error .parseError) ∧
    (∀ content j, parse (if content = "" then "\x7b\x7d" else content) = some j →
      getProp j "servers" = .undefVal →
      initServers (some content) parse = .error .entriesTypeError) ∧
    (∀ content j, parse (if content = "" then "\x7b\x7d" else content) = some j →
      getProp j "servers" = .obj .nil →
      initServers (some content) parse = .ok []) := by
  refine ⟨rfl, ?_, ?_, ?_⟩
  · intro content h
    simp [initServers, beq_iff_eq, h]
  · intro content j hp hs
    simp [initServers, beq_iff_eq, hp, hs]
  · intro content j hp hs
    simp [initServers, beq_iff_eq, hp, hs, jsEntries, jsEntriesF]

theorem initServers_behavior_witness :
    initServers (some "good")
        (fun s =>
          if s = "good" then some (JSVal.obj (.cons "servers" (JSVal.obj .nil) .nil)) else none) =
      .ok [] ∧
    initServers none
        (fun s =>
          if s = "good" then some (JSVal.obj (.cons "servers" (JSVal.obj .nil) .nil)) else none) =
      .error .readError :=
  ⟨(initServers_behavior
      (fun s =>
        if s = "good" then some (JSVal.obj (.cons "servers" (JSVal.obj .nil) .nil)) else none)).2.2.2
      "good" (JSVal.obj (.cons "servers" (JSVal.obj .nil) .nil)) (by decide) rfl,
   (initServers_behavior
      (fun s =>
        if s = "good" then some (JSVal.obj (.cons "servers" (JSVal.obj .nil) .nil)) else none)).1⟩

/-! ## Signature synthesizer: totality on well-formed schemas -/

theorem jsize_pos (s : JSVal) : 1 ≤ jsize s := by
  cases s <;> simp [jsize]

theorem lookupField_jsize : ∀ (fs : JSFields) (k : String),
    lookupField fs k = .undefVal ∨ jsize (lookupField fs k) + 2 ≤ jsize (JSVal.obj fs)
  | .nil, _ => Or.inl rfl
  | .cons k' v rest, k => by
    by_cases hk : k' == k
    · right
      simp only [lookupField, hk, if_true]
      simp [jsize, jsizeF]
      omega
    · rcases lookupField_jsize rest k with h0 | hsz
      · left
        simp [lookupField, hk]
        exact h0
      · right
        simp only [jsize, jsizeF] at hsz ⊢
        simp [lookupField, hk]
        omega

theorem lookupField_schemaOk : ∀ (fs : JSFields) (k : String), schemaOkF fs = true →
    schemaOk (lookupField fs k) = true
  | .nil, _, _ => rfl
  | .cons k' v rest, k, h => by
    simp only [schemaOkF, Bool.and_eq_true] at h
    by_cases hk : k' == k
    · simp only [lookupField, hk, if_true]
      exact h.1
    · simp only [lookupField, hk, if_false]
      exact lookupField_schemaOk rest k h.2

theorem truthy_getProp_obj (s : JSVal) (k : String) (h : truthy (getProp s k) = true) :
    ∃ fs, s = JSVal.obj fs := by
  cases s with
  | obj fs => exact ⟨fs, rfl⟩
  | undefVal => simp [getProp, truthy] at h
  | null => simp [getProp, truthy] at h
  | bool b => simp [getProp, truthy] at h
  | num n => simp [getProp, truthy] at h
  | str st => simp [getProp, truthy] at h
  | arr xs => simp [getProp, truthy] at h

theorem requiredCheck_ok (req : JSVal) (k : String) (h : reqValOk req = true) :
    ∃ b, requiredCheck req k = .ok b := by
  cases req with
  | undefVal => exact ⟨false, rfl⟩
  | null => exact ⟨false, rfl⟩
  | arr xs => exact ⟨jsIncludesStr xs k, rfl⟩
  | str st => exact ⟨containsSub k.data st.data, rfl⟩
  | bool b => simp [reqValOk] at h
  | num n => simp [reqValOk] at h
  | obj fs => simp [reqValOk] at h

theorem enumOkNode_truthy (s : JSVal) (h1 : enumOkNode s = true)
    (h2 : truthy (getProp s "enum") = true) : ∃ xs, getProp s "enum" = JSVal.arr xs := by
  unfold enumOkNode at h1
  cases he : getProp s "enum" with
  | arr xs => exact ⟨xs, rfl⟩
  | undefVal => rw [he] at h2; simp [truthy] at h2
  | null => rw [he] at h2; simp [truthy] at h2
  | bool b => rw [he] at h1 h2; simp [truthy] at h1 h2; simp [h2] at h1
  | num n => rw [he] at h1 h2; simp [truthy] at h1 h2; omega
  | str st => rw [he] at h1 h2; simp [truthy] at h1 h2; exact absurd h1 h2
  | obj fs2 => rw [he] at h1; simp [truthy] at h1

theorem entriesWeight_fields : ∀ fs : JSFields,
    entriesWeight (jsEntriesF fs) ≤ jsizeF fs + 2
  | .nil => by simp [jsEntriesF, entriesWeight, jsizeF]
  | .cons k v rest => by
    have ih := entriesWeight_fields rest
    have hp := jsize_pos v
    show Nat.max (jsize v + 2) (entriesWeight (jsEntriesF rest) + 1) ≤ (1 + jsize v + jsizeF rest) + 2
    refine Nat.max_le.mpr ⟨by omega, by omega⟩

theorem entriesWeight_list : ∀ (xs : JSList) (i : Nat),
    entriesWeight (jsEntriesL i xs) ≤ jsizeL xs + 2
  | .nil, _ => by simp [jsEntriesL, entriesWeight, jsizeL]
  | .cons v rest, i => by
    have ih := entriesWeight_list rest (i + 1)
    have hp := jsize_pos v
    show Nat.max (jsize v + 2) (entriesWeight (jsEntriesL (i + 1) rest) + 1) ≤
      (1 + jsize v + jsizeL rest) + 2
    refine Nat.max_le.mpr ⟨by omega, by omega⟩

theorem entriesWeight_chars : ∀ (l : List Char) (i : Nat),
    entriesWeight (jsEntriesS i l) ≤ l.length + 3
  | [], _ => by simp [jsEntriesS, entriesWeight]
  | c :: rest, i => by
    have ih := entriesWeight_chars rest (i + 1)
    have hc : jsize (JSVal.str (String.mk [c])) = 2 := rfl
    show Nat.max (jsize (JSVal.str (String.mk [c])) + 2)
        (entriesWeight (jsEntriesS (i + 1) rest) + 1) ≤ (c :: rest).length + 3
    rw [hc]
    simp only [List.length_cons]
    refine Nat.max_le.mpr ⟨by omega, by omega⟩

theorem entriesWeight_le (p : JSVal) : entriesWeight (jsEntries p) ≤ jsize p + 2 := by
  cases p with
  | undefVal => simp [jsEntries, entriesWeight, jsize]
  | null => simp [jsEntries, entriesWeight, jsize]
  | bool b => simp [jsEntries, entriesWeight, jsize]
  | num n => simp [jsEntries, entriesWeight, jsize]
  | str st =>
    have h := entriesWeight_chars st.data 0
    show entriesWeight (jsEntriesS 0 st.data) ≤ (1 + st.length) + 2
    have hl : st.length = st.data.length := rfl
    omega
  | arr xs =>
    have h := entriesWeight_list xs 0
    show entriesWeight (jsEntriesL 0 xs) ≤ (1 + jsizeL xs) + 2
    omega
  | obj fs =>
    have h := entriesWeight_fields fs
    show entriesWeight (jsEntriesF fs) ≤ (1 + jsizeF fs) + 2
    omega

theorem jsEntriesF_schemaOk : ∀ fs : JSFields, schemaOkF fs = true →
    ∀ kv ∈ jsEntriesF fs, schemaOk kv.2 = true
  | .nil, _, kv, hkv => absurd hkv (List.not_mem_nil kv)
  | .cons k v rest, h, kv, hkv => by
    simp only [schemaOkF, Bool.and_eq_true] at h
    rcases List.mem_cons.mp hkv with h1 | h2
    · rw [h1]; exact h.1
    · exact jsEntriesF_schemaOk rest h.2 kv h2

theorem jsEntriesL_schemaOk : ∀ (xs : JSList), schemaOkL xs = true →
    ∀ (i : Nat), ∀ kv ∈ jsEntriesL i xs, schemaOk kv.2 = true
  | .nil, _, _, kv, hkv => absurd hkv (List.not_mem_nil kv)
  | .cons v rest, h, i, kv, hkv => by
    simp only [schemaOkL, Bool.and_eq_true] at h
    rcases List.mem_cons.mp hkv with h1 | h2
    · rw [h1]; exact h.1
    · exact jsEntriesL_schemaOk rest h.2 (i + 1) kv h2

theorem jsEntriesS_schemaOk : ∀ (l : List Char) (i : Nat),
    ∀ kv ∈ jsEntriesS i l, schemaOk kv.2 = true
  | [], _, kv, hkv => absurd hkv (List.not_mem_nil kv)
  | c :: rest, i, kv, hkv => by
    rcases List.mem_cons.mp hkv with h1 | h2
    · rw [h1]; rfl
    · exact jsEntriesS_schemaOk rest (i + 1) kv h2

theorem jsEntries_schemaOk (p : JSVal) (hp : schemaOk p = true) :
    ∀ kv ∈ jsEntries p, schemaOk kv.2 = true := by
  cases p with
  | undefVal => intro kv hkv; exact absurd hkv (List.not_mem_nil kv)
  | null => intro kv hkv; exact absurd hkv (List.not_mem_nil kv)
  | bool b => intro kv hkv; exact absurd hkv (List.not_mem_nil kv)
  | num n => intro kv hkv; exact absurd hkv (List.not_mem_nil kv)
  | str st => exact jsEntriesS_schemaOk st.data 0
  | arr xs => exact jsEntriesL_schemaOk xs hp 0
  | obj fs =>
    have h : schemaOkF fs = true := by
      simp only [schemaOk, Bool.and_eq_true] at hp
      exact hp.2
    exact jsEntriesF_schemaOk fs h

theorem entriesWeight_pos (entries : List (String × JSVal)) : 1 ≤ entriesWeight entries := by
  cases entries with
  | nil => simp [entriesWeight]
  | cons kv rest =>
    obtain ⟨k, v⟩ := kv
    show 1 ≤ Nat.max (jsize v + 2) (entriesWeight rest + 1)
    exact le_trans (by omega) (Nat.le_max_left _ _)

/-- Fuel sufficiency: with more fuel than `jsize s`, `toTypeF` succeeds on
every schema satisfying `schemaOk` (at any depth `d`), and likewise
`renderEntriesF` on entry lists within its weight budget. -/
theorem toTypeF_total : ∀ fuel : Nat,
    (∀ s d, jsize s < fuel → schemaOk s = true → (toTypeF fuel s d).isOk = true) ∧
    (∀ entries req d, entriesWeight entries ≤ fuel →
      (∀ kv ∈ entries, schemaOk kv.2 = true) → reqValOk req = true →
      (renderEntriesF fuel entries req d).isOk = true) := by
  intro fuel
  induction fuel with
  | zero =>
    refine ⟨fun s d h _ => absurd h (by omega), fun entries req d hw _ _ => ?_⟩
    exact absurd hw (by have := entriesWeight_pos entries; omega)
  | succ n ih =>
    obtain ⟨ihA, ihB⟩ := ih
    constructor
    · intro s d hfuel hok
      cases ht : truthy s with
      | false => simp [toTypeF, ht, Except.isOk, Except.toBool]
      | true =>
        cases he : truthy (getProp s "enum") with
        | true =>
          obtain ⟨fs, rfl⟩ := truthy_getProp_obj s "enum" he
          have h0 := hok
          simp only [schemaOk, Bool.and_eq_true] at h0
          obtain ⟨xs, hxs⟩ := enumOkNode_truthy _ h0.1.1 he
          simp [toTypeF, ht, he, hxs, truthy, Except.isOk, Except.toBool]
        | false =>
          cases ha : getProp s "type" == JSVal.str "array" with
          | true =>
            cases hi : truthy (getProp s "items") with
            | true =>
              obtain ⟨fs, rfl⟩ := truthy_getProp_obj s "items" hi
              have h0 := hok
              simp only [schemaOk, Bool.and_eq_true] at h0
              have hund : lookupField fs "items" ≠ JSVal.undefVal := by
                intro hu
                have hi' := hi
                rw [show getProp (JSVal.obj fs) "items" = lookupField fs "items" from rfl,
                  hu] at hi'
                exact absurd hi' (by decide)
              have hbound : jsize (lookupField fs "items") < n := by
                rcases lookupField_jsize fs "items" with hq | hq
                · exact absurd hq hund
                · omega
              have hrec := ihA (lookupField fs "items") (d + 1) hbound
                (lookupField_schemaOk fs "items" h0.2)
              simp only [getProp] at he ha hi
              cases hval : toTypeF n (lookupField fs "items") (d + 1) with
              | error e => rw [hval] at hrec; simp [Except.isOk, Except.toBool] at hrec
              | ok t =>
                simp [toTypeF, ht, he, ha, hi, getProp, hval, Except.isOk, Except.toBool]
            | false => simp [toTypeF, ht, he, ha, hi, Except.isOk, Except.toBool]
          | false =>
            cases ho : getProp s "type" == JSVal.str "object" with
            | true =>
              cases hpd : (!truthy (getProp s "properties") || decide (d > 2)) with
              | true => simp [toTypeF, ht, he, ha, ho, hpd, Except.isOk, Except.toBool]
              | false =>
                have hpt : truthy (getProp s "properties") = true := by
                  rcases Bool.or_eq_false_iff.mp hpd with ⟨h1, _⟩
                  simpa using h1
                obtain ⟨fs, rfl⟩ := truthy_getProp_obj s "properties" hpt
                have h0 := hok
                simp only [schemaOk, Bool.and_eq_true] at h0
                have hprops := lookupField_schemaOk fs "properties" h0.2
                have hPbound : jsize (lookupField fs "properties") + 2 ≤ jsize (JSVal.obj fs) := by
                  rcases lookupField_jsize fs "properties" with hq | hq
                  · exfalso
                    have hpt' := hpt
                    rw [show getProp (JSVal.obj fs) "properties" = lookupField fs "properties"
                      from rfl, hq] at hpt'
                    exact absurd hpt' (by decide)
                  · exact hq
                have hW : entriesWeight (jsEntries (lookupField fs "properties")) ≤ n := by
                  have := entriesWeight_le (lookupField fs "properties")
                  omega
                have hreq : reqValOk (lookupField fs "required") = true := h0.1.2
                have hvals := jsEntries_schemaOk (lookupField fs "properties") hprops
                have hrecB := ihB (jsEntries (lookupField fs "properties"))
                  (lookupField fs "required") d hW hvals hreq
                have hd2 : decide (d > 2) = false := (Bool.or_eq_false_iff.mp hpd).2
                have hdle : ¬(2 < d) := by simpa using hd2
                simp only [getProp] at he ha ho hpt
                cases hval : renderEntriesF n (jsEntries (lookupField fs "properties"))
                    (lookupField fs "required") d with
                | error e => rw [hval] at hrecB; simp [Except.isOk, Except.toBool] at hrecB
                | ok parts =>
                  simp [toTypeF, ht, he, ha, ho, hpt, hdle, getProp, hval,
                    Except.isOk, Except.toBool]
            | false => simp [toTypeF, ht, he, ha, ho, Except.isOk, Except.toBool]
    · intro entries req d hw hsok hreq
      cases entries with
      | nil => simp [renderEntriesF, Except.isOk, Except.toBool]
      | cons kv rest =>
        obtain ⟨k, v⟩ := kv
        have hw' : jsize v + 2 ≤ n + 1 ∧ entriesWeight rest + 1 ≤ n + 1 := by
          refine Nat.max_le.mp ?_
          exact hw
        obtain ⟨b, hb⟩ := requiredCheck_ok req k hreq
        have hv := ihA v (d + 1) (by omega) (hsok (k, v) (List.mem_cons_self _ _))
        have hrest := ihB rest req d (by omega)
          (fun kv hkv => hsok kv (List.mem_cons_of_mem _ hkv)) hreq
        cases hval : toTypeF n v (d + 1) with
        | error e => rw [hval] at hv; simp [Except.isOk, Except.toBool] at hv
        | ok t =>
          cases hrval : renderEntriesF n rest req d with
          | error e => rw [hrval] at hrest; simp [Except.isOk, Except.toBool] at hrest
          | ok parts => simp [renderEntriesF, hb, hval, hrval, Except.isOk, Except.toBool]

/-- Claim C3 counterexample: the schema `\x7b enum: 5 \x7d` — a truthy
non-array `enum` field — makes `toType` throw a TypeError (JS calls `.map`
on the number 5); `toType` does not return a signature string on every
malformed schema. -/
theorem spec_c3_counterexample :
    toType (JSVal.obj (.cons "enum" (JSVal.num 5) .nil)) = .error TErr.typeError := rfl

theorem toType_ok_of_schemaOk (s : JSVal) (h : schemaOk s = true) :
    ∃ out, toType s = .ok out := by
  have htot := (toTypeF_total (jsize s + 1)).1 s 0 (by omega) h
  cases hval : toTypeF (jsize s + 1) s 0 with
  | error e => rw [hval] at htot; simp [Except.isOk, Except.toBool] at htot
  | ok t => exact ⟨t, by simpa [toType] using hval⟩

/-- Claim C3 (amended): `toType` terminates and returns a signature string
on every schema value in which, recursively, a truthy `enum` field is an
array and a `required` field is absent, `null`, an array, or a string; on
other shapes (e.g. a truthy non-array `enum`) it can raise a TypeError. -/
theorem toType_total_on_schemaOk (s : JSVal) (h : schemaOk s = true) :
    ∃ out, toType s = .ok out :=
  toType_ok_of_schemaOk s h

theorem toType_total_on_schemaOk_witness :
    ∃ out,
      toType (JSVal.obj (.cons "type" (JSVal.str "object")
        (.cons "properties"
          (JSVal.obj (.cons "n" (JSVal.obj (.cons "type" (JSVal.str "number") .nil)) .nil))
        (.cons "required" (JSVal.arr (.cons (JSVal.str "n") .nil)) .nil)))) = .ok out :=
  toType_total_on_schemaOk
    (JSVal.obj (.cons "type" (JSVal.str "object")
      (.cons "properties"
        (JSVal.obj (.cons "n" (JSVal.obj (.cons "type" (JSVal.str "number") .nil)) .nil))
      (.cons "required" (JSVal.arr (.cons (JSVal.str "n") .nil)) .nil)))) (by decide)

/-! ## Aggregation -/

theorem filterTools_subset (cfg : Server) (ts : List ServerTool) (t : ServerTool)
    (ht : t ∈ filterTools cfg ts) : t ∈ ts := by
  unfold filterTools at ht
  cases ha : allowOf cfg with
  | some l =>
    rw [ha] at ht
    exact (List.mem_filter.mp ht).1
  | none =>
    rw [ha] at ht
    exact (List.mem_filter.mp ht).1

theorem generateInterface_ok (t : ServerTool) (h : schemaOk t.inputSchema = true) :
    ∃ out, generateInterface t = .ok out := by
  obtain ⟨ty, hty⟩ := toType_ok_of_schemaOk t.inputSchema h
  unfold generateInterface
  rw [hty]
  cases hs : splitDot t.name.data with
  | nil => exact ⟨_, rfl⟩
  | cons p0 rest0 =>
    cases rest0 with
    | nil => exact ⟨_, rfl⟩
    | cons p1 rest => exact ⟨_, rfl⟩

theorem generateInterfaceList_ok (tools : List ServerTool)
    (h : ∀ t ∈ tools, schemaOk t.inputSchema = true) :
    ∃ ss, generateInterfaceList tools = .ok ss := by
  induction tools with
  | nil => exact ⟨[], rfl⟩
  | cons t rest ih =>
    obtain ⟨out, hout⟩ := generateInterface_ok t (h t (List.mem_cons_self _ _))
    obtain ⟨ss, hss⟩ := ih (fun t' ht' => h t' (List.mem_cons_of_mem _ ht'))
    exact ⟨out :: ss, by simp [generateInterfaceList, hout, hss]⟩

theorem mem_flatBatches (servers : List (String × Server))
    (outcome : String → Server → Except JsErr (List ServerTool)) (x : String × Server × ServerTool) :
    x ∈ (servers.map (backendBatch outcome)).flatten ↔
      ∃ nc ∈ servers, ∃ ts, outcome nc.1 nc.2 = .ok ts ∧
        x.1 = nc.1 ∧ x.2.1 = nc.2 ∧ x.2.2 ∈ filterTools nc.2 ts := by
  rw [List.mem_flatten]
  constructor
  · rintro ⟨batch, hbatch, hxb⟩
    rw [List.mem_map] at hbatch
    obtain ⟨nc, hnc, rfl⟩ := hbatch
    cases ho : outcome nc.1 nc.2 with
    | error err => simp [backendBatch, ho] at hxb
    | ok ts =>
      simp only [backendBatch, ho, List.mem_map] at hxb
      obtain ⟨t0, ht0, rfl⟩ := hxb
      exact ⟨nc, hnc, ts, ho, rfl, rfl, ht0⟩
  · rintro ⟨nc, hnc, ts, ho, h1, h2, h3⟩
    refine ⟨backendBatch outcome nc, List.mem_map.mpr ⟨nc, hnc, rfl⟩, ?_⟩
    simp only [backendBatch, ho, List.mem_map]
    refine ⟨x.2.2, h3, ?_⟩
    obtain ⟨a, b, c⟩ := x
    simp only at h1 h2
    rw [h1, h2]

/-- The value `getAllServerTools` returns once the interface text is
rendered successfully. -/
theorem getAllServerTools_ok (servers : List (String × Server))
    (outcome : String → Server → Except JsErr (List ServerTool)) (ss : List String)
    (hss : generateInterfaceList ((servers.map (backendBatch outcome)).flatten.map
      (fun e => ServerTool.mk (e.1 ++ "." ++ e.2.2.name) e.2.2.description e.2.2.inputSchema)) =
        .ok ss) :
    getAllServerTools servers outcome = .ok (AggResult.mk
      ((servers.map (backendBatch outcome)).flatten.foldl (fun m e =>
        upsertST m (callableName (e.1 ++ "." ++ e.2.2.name))
          (ServerTool.mk (callableName (e.1 ++ "." ++ e.2.2.name))
            e.2.2.description e.2.2.inputSchema)) [])
      ((servers.map (backendBatch outcome)).flatten.map (fun e => RegEntry.mk e.1 e.2.1 e.2.2))
      ((servers.map (backendBatch outcome)).flatten.map
        (fun e => ServerTool.mk (e.1 ++ "." ++ e.2.2.name) e.2.2.description e.2.2.inputSchema))
      (String.intercalate "\n" ss)) := by
  simp only [getAllServerTools, generateInterfaces, hss]

/-- Claim C2 counterexample: with backend `X` healthy but reporting a tool
whose schema has a truthy non-array `enum`, and backend `Y` failing its
connection, `getAllServerTools` itself throws (the TypeError from the
interface-rendering step escapes the aggregation), instead of completing
with the registry of the succeeding backends. -/
theorem spec_c2_counterexample :
    getAllServerTools
      [("X", Server.mk none none none none none none), ("Y", Server.mk none none none none none none)]
      (fun n _ =>
        if n == "X" then
          .ok [ServerTool.mk "t" none (JSVal.obj (.cons "enum" (JSVal.num 5) .nil))]
        else .error (.thrown "connect ECONNREFUSED")) = .error TErr.typeError ∧
    (fun n (_ : Server) =>
        if n == "X" then
          (.ok [ServerTool.mk "t" none (JSVal.obj (.cons "enum" (JSVal.num 5) .nil))] :
            Except JsErr (List ServerTool))
        else .error (.thrown "connect ECONNREFUSED")) "Y" (Server.mk none none none none none none) =
      .error (.thrown "connect ECONNREFUSED") := by
  exact ⟨rfl, rfl⟩

/-- Claim C2 (amended): whenever every tool reported by a succeeding
backend has a schema on which the signature synthesizer cannot throw
(`schemaOk`), aggregation completes without an exception and the registry
holds exactly the (filtered) tools of the succeeding backends — each
failing backend contributes zero tools. -/
theorem getAllServerTools_partial (servers : List (String × Server))
    (outcome : String → Server → Except JsErr (List ServerTool))
    (h : ∀ nc ∈ servers, ∀ ts, outcome nc.1 nc.2 = Except.ok ts →
      ∀ t ∈ ts, schemaOk t.inputSchema = true) :
    ∃ r, getAllServerTools servers outcome = .ok r ∧
      (∀ e : RegEntry, e ∈ r.toolRegistry ↔
        ∃ nc ∈ servers, ∃ ts, outcome nc.1 nc.2 = Except.ok ts ∧
          e.serverName = nc.1 ∧ e.cfg = nc.2 ∧ e.tool ∈ filterTools nc.2 ts) := by
  have hschema : ∀ t ∈ (servers.map (backendBatch outcome)).flatten.map
      (fun e => ServerTool.mk (e.1 ++ "." ++ e.2.2.name) e.2.2.description e.2.2.inputSchema),
      schemaOk t.inputSchema = true := by
    intro t ht
    rw [List.mem_map] at ht
    obtain ⟨x, hx, rfl⟩ := ht
    rw [mem_flatBatches] at hx
    obtain ⟨nc, hnc, ts, ho, _, _, ht0⟩ := hx
    exact h nc hnc ts ho x.2.2 (filterTools_subset nc.2 ts x.2.2 ht0)
  obtain ⟨ss, hss⟩ := generateInterfaceList_ok _ hschema
  refine ⟨_, getAllServerTools_ok servers outcome ss hss, ?_⟩
  intro e
  show e ∈ (servers.map (backendBatch outcome)).flatten.map
      (fun x => RegEntry.mk x.1 x.2.1 x.2.2) ↔ _
  rw [List.mem_map]
  constructor
  · rintro ⟨x, hx, rfl⟩
    rw [mem_flatBatches] at hx
    obtain ⟨nc, hnc, ts, ho, h1, h2, h3⟩ := hx
    exact ⟨nc, hnc, ts, ho, h1, h2, h3⟩
  · rintro ⟨nc, hnc, ts, ho, h1, h2, h3⟩
    refine ⟨(e.serverName, e.cfg, e.tool), ?_, rfl⟩
    rw [mem_flatBatches]
    exact ⟨nc, hnc, ts, ho, h1, h2, h3⟩

theorem getAllServerTools_partial_witness :
    ∃ r,
      getAllServerTools
        [("X", Server.mk none none none none none none),
         ("Y", Server.mk none none none none none none)]
        (fun n _ =>
          if n == "X" then (.ok [ServerTool.mk "t" none JSVal.undefVal] :
            Except JsErr (List ServerTool))
          else .error (.thrown "connect ECONNREFUSED")) = .ok r ∧
      (∀ e : RegEntry, e ∈ r.toolRegistry ↔
        ∃ nc ∈ [("X", Server.mk none none none none none none),
                ("Y", Server.mk none none none none none none)],
          ∃ ts,
            (fun n (_ : Server) =>
              if n == "X" then (.ok [ServerTool.mk "t" none JSVal.undefVal] :
                Except JsErr (List ServerTool))
              else .error (.thrown "connect ECONNREFUSED")) nc.1 nc.2 = Except.ok ts ∧
            e.serverName = nc.1 ∧ e.cfg = nc.2 ∧ e.tool ∈ filterTools nc.2 ts) :=
  getAllServerTools_partial
    [("X", Server.mk none none none none none none),
     ("Y", Server.mk none none none none none none)]
    (fun n _ =>
      if n == "X" then (.ok [ServerTool.mk "t" none JSVal.undefVal] :
        Except JsErr (List ServerTool))
      else .error (.thrown "connect ECONNREFUSED"))
    (by
      intro nc hnc ts hts t htl
      rcases List.mem_cons.mp hnc with rfl | hnc2
      · obtain rfl : [ServerTool.mk "t" none JSVal.undefVal] = ts := by
          simpa using hts
        rcases List.mem_cons.mp htl with rfl | htl2
        · rfl
        · exact absurd htl2 (List.not_mem_nil t)
      · rcases List.mem_cons.mp hnc2 with rfl | hnc3
        · exact absurd hts (by simp)
        · exact absurd hnc3 (List.not_mem_nil nc))

end Codemode
